import Mathlib

/-!
Verification development for the artwork-materials n-gram analysis repository.

The definitions below are a shallow embedding of the TypeScript sources:

* `src/lib/artwork-materials-ngram-analyzer.ts` (two variants of the
  analyzer appear in that file: the first selects by a minimum-count
  floor, the second by a cumulative-coverage threshold; both share the
  extraction, tallying and sorting steps),
* the AAT vocabulary-matching module (`matchAatSubjects`, `findTopHit`,
  `getMatchQuality`, `matchNgramsToAatSubjects`).

Corpora are modelled at the level the analyzer works with after loading:
lists of tokenized documents (`List (List String)`).  A JavaScript object
used as a tally is modelled as an association list in its enumeration
order (for the space-joined word keys produced here, `Object.keys` /
`toPairs` enumerate in insertion order).  JavaScript numbers holding
non-negative integer counts are modelled as `Nat`; the coverage target,
which is produced by `Math.trunc` on a fractional value, is modelled as
an `Int`; the fractional threshold itself is a rational.
-/

/-- `NgramFrequency` from `src/types.ts`: a pair of an n-gram's
space-joined string form and its occurrence count. -/
structure NgramFrequency where
  ngram : String
  frequency : Nat
deriving DecidableEq, Repr

/-- `NgramTally` from `src/types.ts`: a JavaScript object mapping each
distinct n-gram string to its count, modelled as an association list in
enumeration (insertion) order with unique keys. -/
abbrev NgramTally := List (String × Nat)

/-- `NGrams.ngrams(document, n)` from the `natural` library, as used by
`getAllNgrams`: one window of `n` consecutive tokens per starting offset;
a document shorter than `n` yields no n-grams. -/
def ngramsOf (doc : List String) (n : Nat) : List (List String) :=
  (List.range (doc.length + 1 - n)).map (fun i => (doc.drop i).take n)

/-- `getAllNgrams` from the analyzer: concatenate the n-grams of every
tokenized document, in document order then offset order. -/
def getAllNgrams (docs : List (List String)) (n : Nat) : List (List String) :=
  (docs.map (fun doc => ngramsOf doc n)).flatten

/-- One step of the tally loop in `getTallyOfNgrams`:
`tally[s] = tally[s] ? tally[s] + 1 : 1`.  A fresh key is appended at the
end of the object's enumeration order; an existing key keeps its place. -/
def bump (tally : NgramTally) (key : String) : NgramTally :=
  match tally with
  | [] => [(key, 1)]
  | (k, c) :: rest =>
    if k = key then (k, c + 1) :: rest else (k, c) :: bump rest key

/-- `getTallyOfNgrams` from the analyzer: fold the n-gram list into a
tally keyed by the space-joined string form. -/
def getTallyOfNgrams (ngrams : List (List String)) : NgramTally :=
  ngrams.foldl (fun tally g => bump tally (String.intercalate " " g)) []

/-- `toPairs(tally).map(...)` inside `getSortedNgramFrequencies`: the
tally's entries as `NgramFrequency` records, in enumeration order. -/
def tallyEntries (tally : NgramTally) : List NgramFrequency :=
  tally.map (fun p => ⟨p.1, p.2⟩)

/-- One insertion step of lodash's stable ascending `sortBy`: the new
element goes after every element whose frequency is `≤` its own. -/
def insertAfterLE (nf : NgramFrequency) : List NgramFrequency → List NgramFrequency
  | [] => [nf]
  | x :: xs =>
    if x.frequency ≤ nf.frequency then x :: insertAfterLE nf xs else nf :: x :: xs

/-- lodash `sortBy(frequencies, "frequency")`: a stable sort, ascending
by frequency, ties kept in input order. -/
def sortByFrequency (l : List NgramFrequency) : List NgramFrequency :=
  l.foldl (fun acc nf => insertAfterLE nf acc) []

/-- `getSortedNgramFrequencies` from the analyzer:
`reverse(sortBy(toPairs(tally), "frequency"))`. -/
def getSortedNgramFrequencies (tally : NgramTally) : List NgramFrequency :=
  (sortByFrequency (tallyEntries tally)).reverse

/-- JavaScript `Math.trunc` on a rational: round toward zero
(truncating division of the numerator by the denominator). -/
def jsTrunc (q : ℚ) : Int :=
  q.num.tdiv q.den

/-- The `takeWhile` loop of the coverage-policy `getTopNgrams`: include
an entry while the running sum `frequencySoFar` accumulated before it
does not exceed the target, then stop. -/
def coverageTake (target : Int) : Nat → List NgramFrequency → List NgramFrequency
  | _, [] => []
  | frequencySoFar, nf :: rest =>
    if (frequencySoFar : Int) > target then []
    else nf :: coverageTake target (frequencySoFar + nf.frequency) rest

/-- The coverage-policy `getTopNgrams(n, threshold)` (second analyzer
variant): extract, tally, sort, compute
`desiredTotalFrequency = Math.trunc(threshold * totalNgramCount)`, and
take the leading entries per `coverageTake`. -/
def getTopNgramsCoverage (docs : List (List String)) (n : Nat) (threshold : ℚ) :
    List NgramFrequency :=
  let allNgrams := getAllNgrams docs n
  let tally := getTallyOfNgrams allNgrams
  let sorted := getSortedNgramFrequencies tally
  let desiredTotalFrequency := jsTrunc (threshold * allNgrams.length)
  coverageTake desiredTotalFrequency 0 sorted

/-- The minimum-count `getTopNgrams(n, minFrequency)` (first analyzer
variant): extract, tally, sort, and keep the entries with
`frequency >= minFrequency`. -/
def getTopNgramsMinCount (docs : List (List String)) (n : Nat) (minFrequency : Nat) :
    List NgramFrequency :=
  (getSortedNgramFrequencies (getTallyOfNgrams (getAllNgrams docs n))).filter
    (fun nf => minFrequency ≤ nf.frequency)

/-- Sum of the frequencies of a selection. -/
def sumFreq (l : List NgramFrequency) : Nat :=
  (l.map (fun nf => nf.frequency)).sum

/-- Sum of the counts recorded in a tally. -/
def sumCounts (tally : NgramTally) : Nat :=
  (tally.map (fun p => p.2)).sum

/-! ## The AAT vocabulary-matching module -/

/-- `AatSubject` from `src/types.ts`: one controlled-vocabulary record. -/
structure AatSubject where
  name : String
  terms : List String
  facet_name : String
  record_type : String
deriving DecidableEq, Repr

/-- `Hit<AatSubject>` from `src/types.ts`: one search hit.  The float
relevance score is modelled as a rational; it is never inspected by the
code under analysis. -/
structure Hit where
  _index : String
  _type : String
  _id : String
  _score : ℚ
  _source : AatSubject
deriving DecidableEq, Repr

/-- The `MatchQuality` enum of the matching module. -/
inductive MatchQuality where
  | exact
  | synonym
  | score
  | none
deriving DecidableEq, Repr

/-- `normalize` from the matching module (renamed here because Mathlib
already declares a `normalize`): trim then lowercase. -/
def normalizeTerm (txt : String) : String :=
  txt.trim.toLower

/-- `getMatchQuality(term, aatHit)`: `exact` when the normalized term
equals the hit's normalized preferred name, else `synonym` when it is
among the hit's normalized alternate terms, else `none`; a falsy hit
yields `undefined` (here `Option.none`). -/
def getMatchQuality (term : String) (aatHit : Option Hit) : Option MatchQuality :=
  match aatHit with
  | Option.none => Option.none
  | Option.some hit =>
    let t := normalizeTerm term
    let aatName := normalizeTerm hit._source.name
    let aatTerms := hit._source.terms.map normalizeTerm
    if t = aatName then some MatchQuality.exact
    else if aatTerms.contains t then some MatchQuality.synonym
    else some MatchQuality.none

/-- The candidate-scanning loop of `findTopHit`: walk the hits in rank
order; return the first hit classified `exact` or `synonym`, tagged with
that quality; otherwise fall through to `undefined`. -/
def scanHits (term : String) : List Hit → Option (Hit × MatchQuality)
  | [] => Option.none
  | hit :: rest =>
    if getMatchQuality term (some hit) = some MatchQuality.exact then
      some (hit, MatchQuality.exact)
    else if getMatchQuality term (some hit) = some MatchQuality.synonym then
      some (hit, MatchQuality.synonym)
    else scanHits term rest

/-- A failure raised by the external search client (network error,
non-2xx response rejected by the client, ...). -/
structure SearchError where
  message : String
deriving DecidableEq, Repr

/-- The `hits` wrapper inside an Elasticsearch response body. -/
structure SearchHits where
  hits : List Hit
deriving DecidableEq, Repr

/-- The body of an Elasticsearch search response. -/
structure SearchBody where
  hits : SearchHits
deriving DecidableEq, Repr

/-- The client-level result of `client.search`: status code plus body. -/
structure SearchResult where
  statusCode : Nat
  body : SearchBody
deriving DecidableEq, Repr

/-- The external search client, abstracted as a function of the query
term and the requested size; it may fail with a `SearchError`. -/
abbrev SearchClient := String → Nat → Except SearchError SearchResult

/-- `matchAatSubjects(term, options)`: issue the search with
`size = options?.size || 3`; on success return `result.body` (a non-200
`statusCode` is only logged, the body is returned all the same); on a
thrown error, log and return `undefined` (here `Option.none`). -/
def matchAatSubjects (clientSearch : SearchClient) (term : String)
    (options : Option Nat) : Option SearchBody :=
  let size := match options with
    | some s => if s = 0 then 3 else s
    | Option.none => 3
  match clientSearch term size with
  | Except.ok result => some result.body
  | Except.error _ => Option.none

/-- A JavaScript runtime exception, as rejected by an async function. -/
inductive JsError where
  | typeError
deriving DecidableEq, Repr

/-- `findTopHit(nf)`: query with size 5, then read `response.hits.hits`
and scan them.  When `matchAatSubjects` returned `undefined` (its catch
path), the property read `response.hits` throws a `TypeError`, so the
returned promise rejects. -/
def findTopHit (clientSearch : SearchClient) (nf : NgramFrequency) :
    Except JsError (Option (Hit × MatchQuality)) :=
  match matchAatSubjects clientSearch nf.ngram (some 5) with
  | Option.none => Except.error JsError.typeError
  | Option.some body => Except.ok (scanHits nf.ngram body.hits.hits)

/-- The vocabulary annotation attached to one n-gram in
`matchNgramsToAatSubjects`. -/
structure AatMatch where
  aatName : String
  aatId : String
  facetName : String
  recordType : String
  matchQuality : MatchQuality
deriving DecidableEq, Repr

/-- The object literal built from a top hit in
`matchNgramsToAatSubjects`. -/
def toAatMatch (hit : Hit × MatchQuality) : AatMatch :=
  { aatName := hit.1._source.name
    aatId := hit.1._id
    facetName := hit.1._source.facet_name
    recordType := hit.1._source.record_type
    matchQuality := hit.2 }

/-- `Promise.all`: resolve with the list of results in input order, or
reject as soon as any member rejects. -/
def promiseAll {ε α : Type} : List (Except ε α) → Except ε (List α)
  | [] => Except.ok []
  | Except.error e :: _ => Except.error e
  | Except.ok a :: xs => (promiseAll xs).map (fun rest => a :: rest)

/-- `matchNgramsToAatSubjects(ngrams)`: dispatch `findTopHit` for every
n-gram, await them all, and pair each input n-gram (by index) with its
own optional match. -/
def matchNgramsToAatSubjects (clientSearch : SearchClient)
    (ngrams : List NgramFrequency) :
    Except JsError (List (NgramFrequency × Option AatMatch)) :=
  match promiseAll (ngrams.map (fun ngram => findTopHit clientSearch ngram)) with
  | Except.error e => Except.error e
  | Except.ok topHits =>
    Except.ok (List.zipWith (fun hit nf => (nf, hit.map toAatMatch)) topHits ngrams)

/-- The three-document demonstration corpus used by the spec's concrete
scenarios, already tokenized. -/
def demoCorpus : List (List String) :=
  [["oil", "on", "canvas"], ["oil", "on", "board"], ["acrylic", "on", "canvas"]]

/-! ## Basic lemmas about the embedded operations -/

theorem jsTrunc_eq_floor (q : ℚ) (h : 0 ≤ q) : jsTrunc q = ⌊q⌋ := by
  rw [jsTrunc, Rat.floor_def]
  exact Int.tdiv_eq_ediv (Rat.num_nonneg.mpr h) (Int.natCast_nonneg q.den)

theorem sumCounts_bump (t : NgramTally) (k : String) :
    sumCounts (bump t k) = sumCounts t + 1 := by
  induction t with
  | nil => rfl
  | cons p rest ih =>
    obtain ⟨a, c⟩ := p
    by_cases h : a = k
    · simp [bump, h, sumCounts]
      omega
    · simp only [bump, if_neg h, sumCounts, List.map_cons, List.sum_cons] at *
      omega

theorem sumCounts_tally_foldl (l : List (List String)) (t : NgramTally) :
    sumCounts (l.foldl (fun tally g => bump tally (String.intercalate " " g)) t) =
      sumCounts t + l.length := by
  induction l generalizing t with
  | nil => simp
  | cons g rest ih =>
    simp only [List.foldl_cons, List.length_cons, ih, sumCounts_bump]
    omega

theorem length_getAllNgrams (docs : List (List String)) (n : Nat) :
    (getAllNgrams docs n).length = (docs.map (fun d => d.length + 1 - n)).sum := by
  simp [getAllNgrams, List.length_flatten, List.map_map, ngramsOf, Function.comp_def]

theorem bump_pos (t : NgramTally) (k : String)
    (h : ∀ p ∈ t, 1 ≤ p.2) : ∀ p ∈ bump t k, 1 ≤ p.2 := by
  induction t with
  | nil =>
    intro p hp
    rw [show bump [] k = [(k, 1)] from rfl, List.mem_singleton] at hp
    subst hp
    exact le_refl 1
  | cons q rest ih =>
    obtain ⟨a, c⟩ := q
    intro p hp
    rw [show bump ((a, c) :: rest) k =
        if a = k then (a, c + 1) :: rest else (a, c) :: bump rest k from rfl] at hp
    by_cases hk : a = k
    · rw [if_pos hk, List.mem_cons] at hp
      rcases hp with hp | hp
      · subst hp
        exact Nat.succ_le_succ (Nat.zero_le c)
      · exact h p (List.mem_cons_of_mem _ hp)
    · rw [if_neg hk, List.mem_cons] at hp
      rcases hp with hp | hp
      · subst hp
        exact h (a, c) (List.mem_cons_self _ _)
      · exact ih (fun q hq => h q (List.mem_cons_of_mem _ hq)) p hp

theorem tally_foldl_pos (l : List (List String)) (t : NgramTally)
    (h : ∀ p ∈ t, 1 ≤ p.2) :
    ∀ p ∈ l.foldl (fun tally g => bump tally (String.intercalate " " g)) t, 1 ≤ p.2 := by
  induction l generalizing t with
  | nil => simpa using h
  | cons g rest ih =>
    simp only [List.foldl_cons]
    exact ih _ (bump_pos t _ h)

theorem getTallyOfNgrams_pos (ngrams : List (List String)) :
    ∀ p ∈ getTallyOfNgrams ngrams, 1 ≤ p.2 :=
  tally_foldl_pos ngrams [] (by simp)

theorem insertAfterLE_perm (nf : NgramFrequency) (l : List NgramFrequency) :
    (insertAfterLE nf l).Perm (nf :: l) := by
  induction l with
  | nil => exact List.Perm.refl _
  | cons x xs ih =>
    rw [insertAfterLE]
    by_cases h : x.frequency ≤ nf.frequency
    · rw [if_pos h]
      exact (ih.cons x).trans (List.Perm.swap nf x xs)
    · rw [if_neg h]

theorem sortByFrequency_foldl_perm (l : List NgramFrequency) (acc : List NgramFrequency) :
    (l.foldl (fun acc nf => insertAfterLE nf acc) acc).Perm (l ++ acc) := by
  induction l generalizing acc with
  | nil => simp
  | cons nf rest ih =>
    rw [List.foldl_cons]
    refine (ih (insertAfterLE nf acc)).trans ?_
    have h1 : (rest ++ insertAfterLE nf acc).Perm (rest ++ nf :: acc) :=
      List.Perm.append_left rest (insertAfterLE_perm nf acc)
    exact h1.trans List.perm_middle

theorem sortByFrequency_perm (l : List NgramFrequency) :
    (sortByFrequency l).Perm l := by
  have := sortByFrequency_foldl_perm l []
  simpa [sortByFrequency] using this

theorem getSortedNgramFrequencies_perm (tally : NgramTally) :
    (getSortedNgramFrequencies tally).Perm (tallyEntries tally) :=
  (List.reverse_perm _).trans (sortByFrequency_perm _)

theorem insertAfterLE_pairwise (nf : NgramFrequency) (l : List NgramFrequency)
    (h : l.Pairwise (fun a b => a.frequency ≤ b.frequency)) :
    (insertAfterLE nf l).Pairwise (fun a b => a.frequency ≤ b.frequency) := by
  induction l with
  | nil => simp [insertAfterLE]
  | cons x xs ih =>
    rw [List.pairwise_cons] at h
    obtain ⟨hx, hxs⟩ := h
    rw [insertAfterLE]
    by_cases hle : x.frequency ≤ nf.frequency
    · rw [if_pos hle, List.pairwise_cons]
      refine ⟨?_, ih hxs⟩
      intro y hy
      have hy2 : y ∈ nf :: xs := (insertAfterLE_perm nf xs).mem_iff.mp hy
      rcases List.mem_cons.mp hy2 with hy2 | hy2
      · subst hy2
        exact hle
      · exact hx y hy2
    · rw [if_neg hle, List.pairwise_cons]
      refine ⟨?_, List.pairwise_cons.mpr ⟨hx, hxs⟩⟩
      intro y hy
      rcases List.mem_cons.mp hy with hy | hy
      · subst hy
        exact Nat.le_of_lt (Nat.lt_of_not_le hle)
      · exact Nat.le_trans (Nat.le_of_lt (Nat.lt_of_not_le hle)) (hx y hy)

theorem sortByFrequency_foldl_pairwise (l : List NgramFrequency) (acc : List NgramFrequency)
    (h : acc.Pairwise (fun a b => a.frequency ≤ b.frequency)) :
    (l.foldl (fun acc nf => insertAfterLE nf acc) acc).Pairwise
      (fun a b => a.frequency ≤ b.frequency) := by
  induction l generalizing acc with
  | nil => simpa using h
  | cons nf rest ih =>
    rw [List.foldl_cons]
    exact ih _ (insertAfterLE_pairwise nf acc h)

theorem sortByFrequency_pairwise (l : List NgramFrequency) :
    (sortByFrequency l).Pairwise (fun a b => a.frequency ≤ b.frequency) :=
  sortByFrequency_foldl_pairwise l [] (List.Pairwise.nil)

theorem getSortedNgramFrequencies_pairwise (tally : NgramTally) :
    (getSortedNgramFrequencies tally).Pairwise (fun a b => b.frequency ≤ a.frequency) := by
  rw [getSortedNgramFrequencies, List.pairwise_reverse]
  exact sortByFrequency_pairwise _

theorem insertAfterLE_filter_ne (nf : NgramFrequency) (l : List NgramFrequency) (f : Nat)
    (hne : nf.frequency ≠ f) :
    (insertAfterLE nf l).filter (fun x => x.frequency == f) =
      l.filter (fun x => x.frequency == f) := by
  induction l with
  | nil => simp [insertAfterLE, hne]
  | cons x xs ih =>
    rw [insertAfterLE]
    by_cases hle : x.frequency ≤ nf.frequency
    · rw [if_pos hle]
      by_cases hx : x.frequency = f
      · simp [List.filter_cons, hx, ih]
      · simp [List.filter_cons, hx, ih]
    · rw [if_neg hle]
      simp [List.filter_cons, hne]

theorem insertAfterLE_filter_eq (nf : NgramFrequency) (l : List NgramFrequency)
    (h : l.Pairwise (fun a b => a.frequency ≤ b.frequency)) :
    (insertAfterLE nf l).filter (fun x => x.frequency == nf.frequency) =
      l.filter (fun x => x.frequency == nf.frequency) ++ [nf] := by
  induction l with
  | nil => simp [insertAfterLE]
  | cons x xs ih =>
    rw [List.pairwise_cons] at h
    obtain ⟨hx, hxs⟩ := h
    rw [insertAfterLE]
    by_cases hle : x.frequency ≤ nf.frequency
    · rw [if_pos hle]
      by_cases hxf : x.frequency = nf.frequency
      · simp [List.filter_cons, hxf, ih hxs]
      · simp [List.filter_cons, hxf, ih hxs]
    · rw [if_neg hle]
      have hgt : nf.frequency < x.frequency := Nat.lt_of_not_le hle
      have hnone : (x :: xs).filter (fun y => y.frequency == nf.frequency) = [] := by
        rw [List.filter_eq_nil_iff]
        intro y hy
        rcases List.mem_cons.mp hy with hy | hy
        · subst hy
          simp [Nat.ne_of_gt hgt]
        · have : x.frequency ≤ y.frequency := hx y hy
          simp [Nat.ne_of_gt (Nat.lt_of_lt_of_le hgt this)]
      rw [List.filter_cons_of_pos (by simp), hnone]
      rfl

theorem sortByFrequency_foldl_filter (l : List NgramFrequency) (acc : List NgramFrequency)
    (f : Nat) (h : acc.Pairwise (fun a b => a.frequency ≤ b.frequency)) :
    (l.foldl (fun acc nf => insertAfterLE nf acc) acc).filter (fun x => x.frequency == f) =
      acc.filter (fun x => x.frequency == f) ++ l.filter (fun x => x.frequency == f) := by
  induction l generalizing acc with
  | nil => simp
  | cons nf rest ih =>
    rw [List.foldl_cons]
    rw [ih (insertAfterLE nf acc) (insertAfterLE_pairwise nf acc h)]
    by_cases hf : nf.frequency = f
    · subst hf
      rw [insertAfterLE_filter_eq nf acc h]
      rw [List.filter_cons_of_pos (by simp)]
      simp
    · rw [insertAfterLE_filter_ne nf acc f hf]
      rw [List.filter_cons_of_neg (by simp [hf])]

theorem getSortedNgramFrequencies_filter (tally : NgramTally) (f : Nat) :
    (getSortedNgramFrequencies tally).filter (fun x => x.frequency == f) =
      ((tallyEntries tally).filter (fun x => x.frequency == f)).reverse := by
  rw [getSortedNgramFrequencies, List.filter_reverse]
  congr 1
  have := sortByFrequency_foldl_filter (tallyEntries tally) [] f List.Pairwise.nil
  simpa [sortByFrequency] using this

theorem coverageTake_eq_take (target : Int) (l : List NgramFrequency) :
    ∀ acc : Nat, coverageTake target acc l = l.take ((coverageTake target acc l).length) := by
  induction l with
  | nil => intro acc; rfl
  | cons nf rest ih =>
    intro acc
    rw [coverageTake]
    by_cases h : (acc : Int) > target
    · rw [if_pos h]
      rfl
    · rw [if_neg h]
      rw [List.length_cons, List.take_succ_cons]
      rw [← ih (acc + nf.frequency)]

theorem coverageTake_length_iff (target : Int) (l : List NgramFrequency) :
    ∀ (acc : Nat) (i : Nat), i < l.length →
      (i < (coverageTake target acc l).length ↔
        ((acc + sumFreq (l.take i) : Nat) : Int) ≤ target) := by
  induction l with
  | nil =>
    intro acc i hi
    exact absurd hi (by simp)
  | cons nf rest ih =>
    intro acc i hi
    rw [coverageTake]
    by_cases h : (acc : Int) > target
    · rw [if_pos h]
      constructor
      · intro hlt
        exact absurd hlt (by simp)
      · intro hle
        exfalso
        have : ((acc : Nat) : Int) ≤ target := by
          refine le_trans ?_ hle
          simp
        omega
    · rw [if_neg h]
      cases i with
      | zero =>
        simp only [List.length_cons, List.take_zero]
        constructor
        · intro _
          simpa [sumFreq] using Int.not_lt.mp h
        · intro _
          exact Nat.succ_pos _
      | succ j =>
        rw [List.length_cons, List.take_succ_cons]
        have hj : j < rest.length := by
          simpa using Nat.lt_of_succ_lt_succ hi
        rw [Nat.succ_lt_succ_iff]
        rw [ih (acc + nf.frequency) j hj]
        constructor
        · intro hle
          refine le_of_eq_of_le ?_ hle
          simp [sumFreq]
          omega
        · intro hle
          refine le_of_eq_of_le ?_ hle
          simp [sumFreq]
          omega

theorem coverageTake_length_mono (t1 t2 : Int) (hle : t1 ≤ t2) (l : List NgramFrequency) :
    ∀ acc : Nat, (coverageTake t1 acc l).length ≤ (coverageTake t2 acc l).length := by
  induction l with
  | nil => intro acc; exact Nat.le_refl _
  | cons nf rest ih =>
    intro acc
    rw [coverageTake, coverageTake]
    by_cases h1 : (acc : Int) > t1
    · rw [if_pos h1]
      exact Nat.zero_le _
    · rw [if_neg h1, if_neg (by omega)]
      simpa using ih (acc + nf.frequency)

theorem coverageTake_sum_mono (t1 t2 : Int) (hle : t1 ≤ t2) (l : List NgramFrequency) :
    ∀ acc : Nat, sumFreq (coverageTake t1 acc l) ≤ sumFreq (coverageTake t2 acc l) := by
  induction l with
  | nil => intro acc; exact Nat.le_refl _
  | cons nf rest ih =>
    intro acc
    rw [coverageTake, coverageTake]
    by_cases h1 : (acc : Int) > t1
    · rw [if_pos h1]
      exact Nat.zero_le _
    · rw [if_neg h1, if_neg (by omega)]
      simp only [sumFreq, List.map_cons, List.sum_cons]
      exact Nat.add_le_add_left (ih (acc + nf.frequency)) _

theorem coverageTake_exceeds_or_all (target : Int) (l : List NgramFrequency) :
    ∀ acc : Nat, target < ((acc + sumFreq (coverageTake target acc l) : Nat) : Int) ∨
      coverageTake target acc l = l := by
  induction l with
  | nil => intro acc; exact Or.inr rfl
  | cons nf rest ih =>
    intro acc
    rw [coverageTake]
    by_cases h : (acc : Int) > target
    · rw [if_pos h]
      left
      simp only [sumFreq, List.map_nil, List.sum_nil]
      omega
    · rw [if_neg h]
      rcases ih (acc + nf.frequency) with hlt | heq
      · left
        simp only [sumFreq, List.map_cons, List.sum_cons] at *
        omega
      · right
        rw [heq]

theorem getTopNgramsCoverage_def (docs : List (List String)) (n : Nat) (threshold : ℚ) :
    getTopNgramsCoverage docs n threshold =
      coverageTake (jsTrunc (threshold * ((getAllNgrams docs n).length : ℚ))) 0
        (getSortedNgramFrequencies (getTallyOfNgrams (getAllNgrams docs n))) := rfl

/-! ## Claim C4: tally conservation -/

/-- C4: for every corpus and every n ≥ 1, the tally's counts sum to the
total number of extracted n-grams, which is Σ over documents of
max(0, len(doc) − n + 1) (here the truncated `d.length + 1 - n`); no
n-gram is dropped or double-counted. -/
theorem tally_conservation (docs : List (List String)) (n : Nat) (hn : 1 ≤ n) :
    sumCounts (getTallyOfNgrams (getAllNgrams docs n)) = (getAllNgrams docs n).length ∧
    (getAllNgrams docs n).length = (docs.map (fun d => d.length + 1 - n)).sum := by
  constructor
  · have h := sumCounts_tally_foldl (getAllNgrams docs n) []
    simpa [getTallyOfNgrams, sumCounts] using h
  · exact length_getAllNgrams docs n

/-- Witness for C4 at the demonstration corpus with n = 2. -/
theorem tally_conservation_witness :
    1 ≤ 2 ∧
    (sumCounts (getTallyOfNgrams (getAllNgrams demoCorpus 2)) =
        (getAllNgrams demoCorpus 2).length ∧
      (getAllNgrams demoCorpus 2).length =
        (demoCorpus.map (fun d => d.length + 1 - 2)).sum) :=
  ⟨by decide, tally_conservation demoCorpus 2 (by decide)⟩

/-! ## Claim C5: order of the sorted tally -/

/-- C5 counterexample: the tally built from the corpus [["x"], ["y"]]
with n = 1 lists "x" before "y" (first-encountered insertion order), but
the sorted frequency list the selection policies receive is
["y", "x"] — the claimed tie-breaking by first-encountered insertion
order would give ["x", "y"]. -/
theorem sort_tie_order_counterexample :
    getSortedNgramFrequencies (getTallyOfNgrams (getAllNgrams [["x"], ["y"]] 1)) =
      [⟨"y", 1⟩, ⟨"x", 1⟩] ∧
    getSortedNgramFrequencies (getTallyOfNgrams (getAllNgrams [["x"], ["y"]] 1)) ≠
      [⟨"x", 1⟩, ⟨"y", 1⟩] := by
  constructor
  · decide
  · decide

/-- C5 (amended): the sorted list handed to both selection policies is
ordered by descending frequency and is a permutation of the tally's
entries, but ties among equal frequencies appear in the REVERSE of
first-encountered insertion order (the list is stably sorted ascending
and then reversed); the order is still deterministic for a given
input. -/
theorem sort_order_descending_ties_reversed (tally : NgramTally) :
    (getSortedNgramFrequencies tally).Pairwise (fun a b => b.frequency ≤ a.frequency) ∧
    (getSortedNgramFrequencies tally).Perm (tallyEntries tally) ∧
    ∀ f : Nat, (getSortedNgramFrequencies tally).filter (fun x => x.frequency == f) =
      ((tallyEntries tally).filter (fun x => x.frequency == f)).reverse :=
  ⟨getSortedNgramFrequencies_pairwise tally, getSortedNgramFrequencies_perm tally,
    fun f => getSortedNgramFrequencies_filter tally f⟩

/-! ## Claim C7: minimum-count policy -/

/-- C7: the minimum-count selection is exactly the subsequence of the
sorted tally whose entries have frequency ≥ the floor (so sorted order
is preserved); a floor of 0 returns the whole sorted list; and every
returned entry has frequency ≥ 1 and ≥ the floor (never 0, never below
the floor). -/
theorem minimum_count_policy (docs : List (List String)) (n minFrequency : Nat) :
    (getTopNgramsMinCount docs n minFrequency).Sublist
      (getSortedNgramFrequencies (getTallyOfNgrams (getAllNgrams docs n))) ∧
    (∀ nf : NgramFrequency, nf ∈ getTopNgramsMinCount docs n minFrequency ↔
      (nf ∈ getSortedNgramFrequencies (getTallyOfNgrams (getAllNgrams docs n)) ∧
        minFrequency ≤ nf.frequency)) ∧
    (minFrequency = 0 → getTopNgramsMinCount docs n minFrequency =
      getSortedNgramFrequencies (getTallyOfNgrams (getAllNgrams docs n))) ∧
    (∀ nf ∈ getTopNgramsMinCount docs n minFrequency,
      1 ≤ nf.frequency ∧ minFrequency ≤ nf.frequency) := by
  refine ⟨List.filter_sublist _, ?_, ?_, ?_⟩
  · intro nf
    rw [getTopNgramsMinCount, List.mem_filter]
    simp
  · intro h
    subst h
    rw [getTopNgramsMinCount]
    refine List.filter_eq_self.mpr ?_
    intro a _
    simp
  · intro nf hnf
    rw [getTopNgramsMinCount, List.mem_filter] at hnf
    obtain ⟨hmem, hge⟩ := hnf
    have hent : nf ∈ tallyEntries (getTallyOfNgrams (getAllNgrams docs n)) :=
      (getSortedNgramFrequencies_perm _).mem_iff.mp hmem
    obtain ⟨p, hp, hfp⟩ := List.mem_map.mp hent
    refine ⟨?_, by simpa using hge⟩
    have hpos := getTallyOfNgrams_pos (getAllNgrams docs n) p hp
    rw [← hfp]
    exact hpos

/-- Witness for C7 at the demonstration corpus with n = 1, floor 2. -/
theorem minimum_count_policy_witness :
    (getTopNgramsMinCount demoCorpus 1 2).Sublist
      (getSortedNgramFrequencies (getTallyOfNgrams (getAllNgrams demoCorpus 1))) ∧
    (∀ nf : NgramFrequency, nf ∈ getTopNgramsMinCount demoCorpus 1 2 ↔
      (nf ∈ getSortedNgramFrequencies (getTallyOfNgrams (getAllNgrams demoCorpus 1)) ∧
        2 ≤ nf.frequency)) ∧
    (2 = 0 → getTopNgramsMinCount demoCorpus 1 2 =
      getSortedNgramFrequencies (getTallyOfNgrams (getAllNgrams demoCorpus 1))) ∧
    (∀ nf ∈ getTopNgramsMinCount demoCorpus 1 2,
      1 ≤ nf.frequency ∧ 2 ≤ nf.frequency) :=
  minimum_count_policy demoCorpus 1 2

/-! ## Claim C1: coverage stopping rule -/

/-- The sorted tally of the demonstration corpus for n = 2, as the
coverage policy receives it. -/
def demoSorted : List NgramFrequency :=
  [⟨"on canvas", 2⟩, ⟨"oil on", 2⟩, ⟨"acrylic on", 1⟩, ⟨"on board", 1⟩]

/-- C1: for every descending-sorted tally, θ in [0,1] and total count T,
the coverage policy's target is ⌊θ·T⌋; the selection is a prefix of the
sorted list; an entry at position i is selected iff the running sum of
the frequencies before it is ≤ the target; and on the corpus
["oil on canvas", "oil on board", "acrylic on canvas"] with n = 2 and
θ = 0.5 the selected set is exactly {"oil on": 2, "on canvas": 2}. -/
theorem coverage_stopping_rule (l : List NgramFrequency) (θ : ℚ) (T : Nat)
    (hsorted : l.Pairwise (fun a b => b.frequency ≤ a.frequency))
    (h0 : 0 ≤ θ) (h1 : θ ≤ 1) :
    jsTrunc (θ * T) = ⌊θ * (T : ℚ)⌋ ∧
    coverageTake (jsTrunc (θ * T)) 0 l =
      l.take ((coverageTake (jsTrunc (θ * T)) 0 l).length) ∧
    (∀ i, i < l.length →
      (i < (coverageTake (jsTrunc (θ * T)) 0 l).length ↔
        ((sumFreq (l.take i) : Nat) : Int) ≤ jsTrunc (θ * T))) ∧
    ((getTopNgramsCoverage demoCorpus 2 (1/2)).map (fun nf => (nf.ngram, nf.frequency))).Perm
      [("oil on", 2), ("on canvas", 2)] := by
  refine ⟨jsTrunc_eq_floor _ (mul_nonneg h0 (Nat.cast_nonneg _)),
    coverageTake_eq_take _ _ 0, ?_, ?_⟩
  · intro i hi
    have h := coverageTake_length_iff (jsTrunc (θ * T)) l 0 i hi
    simpa using h
  · have h6 : (getAllNgrams demoCorpus 2).length = 6 := rfl
    have ht : jsTrunc (1/2 * ((getAllNgrams demoCorpus 2).length : ℚ)) = 3 := by
      rw [h6, jsTrunc_eq_floor _ (by norm_num)]
      norm_num
    rw [getTopNgramsCoverage_def, ht]
    decide

/-- Witness for C1 at the demonstration sorted tally, θ = 1/2, T = 6. -/
theorem coverage_stopping_rule_witness :
    demoSorted.Pairwise (fun a b => b.frequency ≤ a.frequency) ∧
    (0 : ℚ) ≤ 1/2 ∧ (1/2 : ℚ) ≤ 1 ∧
    (jsTrunc (1/2 * (6 : Nat)) = ⌊(1/2 : ℚ) * ((6 : Nat) : ℚ)⌋ ∧
      coverageTake (jsTrunc (1/2 * (6 : Nat))) 0 demoSorted =
        demoSorted.take ((coverageTake (jsTrunc (1/2 * (6 : Nat))) 0 demoSorted).length) ∧
      (∀ i, i < demoSorted.length →
        (i < (coverageTake (jsTrunc (1/2 * (6 : Nat))) 0 demoSorted).length ↔
          ((sumFreq (demoSorted.take i) : Nat) : Int) ≤ jsTrunc (1/2 * (6 : Nat)))) ∧
      ((getTopNgramsCoverage demoCorpus 2 (1/2)).map
          (fun nf => (nf.ngram, nf.frequency))).Perm
        [("oil on", 2), ("on canvas", 2)]) :=
  ⟨by decide, by norm_num, by norm_num,
    coverage_stopping_rule demoSorted (1/2) 6 (by decide) (by norm_num) (by norm_num)⟩

/-! ## Claim C6: degenerate selection inputs -/

/-- C6 counterexample: with the one-document corpus [["a"]], n = 1 and
coverage threshold θ = 0, the selection is the single top entry, not the
empty list the claim requires. -/
theorem coverage_zero_threshold_counterexample :
    getTopNgramsCoverage [["a"]] 1 0 = [⟨"a", 1⟩] ∧
    getTopNgramsCoverage [["a"]] 1 0 ≠ [] := by
  have ht : jsTrunc (0 * ((getAllNgrams [["a"]] 1).length : ℚ)) = 0 := by
    rw [zero_mul, jsTrunc_eq_floor _ le_rfl]
    exact Int.floor_zero
  have h1 : getTopNgramsCoverage [["a"]] 1 0 = [⟨"a", 1⟩] := by
    rw [getTopNgramsCoverage_def, ht]
    decide
  refine ⟨h1, ?_⟩
  rw [h1]
  decide

/-- C6 (amended): both selection policies are total functions; an empty
tally yields the empty list under either policy, and a floor of 0 yields
the full sorted list; but a coverage threshold of θ = 0 yields the first
entry of the sorted list (`take 1`) — empty only when the tally itself
is empty — because the running sum before the first entry is 0, which
does not exceed the target 0. -/
theorem degenerate_selection_inputs (docs : List (List String)) (n minFrequency : Nat)
    (θ : ℚ) :
    (getTallyOfNgrams (getAllNgrams docs n) = [] →
      getTopNgramsCoverage docs n θ = [] ∧ getTopNgramsMinCount docs n minFrequency = []) ∧
    (getTopNgramsCoverage docs n 0 =
      (getSortedNgramFrequencies (getTallyOfNgrams (getAllNgrams docs n))).take 1) ∧
    (getTopNgramsMinCount docs n 0 =
      getSortedNgramFrequencies (getTallyOfNgrams (getAllNgrams docs n))) := by
  refine ⟨?_, ?_, ?_⟩
  · intro h
    constructor
    · rw [getTopNgramsCoverage_def, h]
      rfl
    · rw [getTopNgramsMinCount, h]
      rfl
  · have ht : jsTrunc (0 * ((getAllNgrams docs n).length : ℚ)) = 0 := by
      rw [zero_mul, jsTrunc_eq_floor _ le_rfl]
      exact Int.floor_zero
    rw [getTopNgramsCoverage_def, ht]
    cases hs : getSortedNgramFrequencies (getTallyOfNgrams (getAllNgrams docs n)) with
    | nil => rfl
    | cons nf rest =>
      have hnf : 1 ≤ nf.frequency := by
        have hmem : nf ∈ getSortedNgramFrequencies (getTallyOfNgrams (getAllNgrams docs n)) := by
          rw [hs]
          exact List.mem_cons_self _ _
        have hent : nf ∈ tallyEntries (getTallyOfNgrams (getAllNgrams docs n)) :=
          (getSortedNgramFrequencies_perm _).mem_iff.mp hmem
        obtain ⟨p, hp, hfp⟩ := List.mem_map.mp hent
        have hpos := getTallyOfNgrams_pos (getAllNgrams docs n) p hp
        rw [← hfp]
        exact hpos
      rw [coverageTake, if_neg (by simp)]
      cases rest with
      | nil => rfl
      | cons m ms =>
        rw [coverageTake, if_pos (by push_cast; omega)]
        rfl
  · rw [getTopNgramsMinCount]
    refine List.filter_eq_self.mpr ?_
    intro a _
    simp

/-- Witness for C6 on an empty corpus, where the empty-tally hypothesis
holds. -/
theorem degenerate_selection_inputs_witness :
    getTallyOfNgrams (getAllNgrams ([] : List (List String)) 1) = [] ∧
    (getTopNgramsCoverage ([] : List (List String)) 1 (1/2) = [] ∧
      getTopNgramsMinCount ([] : List (List String)) 1 5 = []) :=
  ⟨rfl, (degenerate_selection_inputs [] 1 5 (1/2)).1 rfl⟩

/-! ## Claim C8: coverage monotonicity -/

/-- C8: for a fixed corpus and n, raising the coverage threshold never
shrinks the selection: with θ1 ≤ θ2 in [0,1], the θ2 selection has at
least as many entries and at least as much cumulative frequency. -/
theorem coverage_monotone (docs : List (List String)) (n : Nat) (θ1 θ2 : ℚ)
    (h0 : 0 ≤ θ1) (h12 : θ1 ≤ θ2) (h1 : θ2 ≤ 1) :
    (getTopNgramsCoverage docs n θ1).length ≤ (getTopNgramsCoverage docs n θ2).length ∧
    sumFreq (getTopNgramsCoverage docs n θ1) ≤ sumFreq (getTopNgramsCoverage docs n θ2) := by
  have hT : (0 : ℚ) ≤ ((getAllNgrams docs n).length : ℚ) := Nat.cast_nonneg _
  have ht : jsTrunc (θ1 * ((getAllNgrams docs n).length : ℚ)) ≤
      jsTrunc (θ2 * ((getAllNgrams docs n).length : ℚ)) := by
    rw [jsTrunc_eq_floor _ (mul_nonneg h0 hT),
      jsTrunc_eq_floor _ (mul_nonneg (le_trans h0 h12) hT)]
    exact Int.floor_le_floor (mul_le_mul_of_nonneg_right h12 hT)
  rw [getTopNgramsCoverage_def, getTopNgramsCoverage_def]
  exact ⟨coverageTake_length_mono _ _ ht _ 0, coverageTake_sum_mono _ _ ht _ 0⟩

/-- Witness for C8 at the demonstration corpus, θ1 = 1/4, θ2 = 1/2. -/
theorem coverage_monotone_witness :
    (0 : ℚ) ≤ 1/4 ∧ (1/4 : ℚ) ≤ 1/2 ∧ (1/2 : ℚ) ≤ 1 ∧
    ((getTopNgramsCoverage demoCorpus 2 (1/4)).length ≤
        (getTopNgramsCoverage demoCorpus 2 (1/2)).length ∧
      sumFreq (getTopNgramsCoverage demoCorpus 2 (1/4)) ≤
        sumFreq (getTopNgramsCoverage demoCorpus 2 (1/2))) :=
  ⟨by norm_num, by norm_num, by norm_num,
    coverage_monotone demoCorpus 2 (1/4) (1/2) (by norm_num) (by norm_num) (by norm_num)⟩

/-! ## Claim C10: coverage is achieved -/

/-- C10: for a non-empty sorted tally and θ in [0,1], the coverage
selection's cumulative frequency strictly exceeds the target ⌊θ·T⌋, or
else the selection is the whole sorted list. -/
theorem coverage_achieved (docs : List (List String)) (n : Nat) (θ : ℚ)
    (hne : getSortedNgramFrequencies (getTallyOfNgrams (getAllNgrams docs n)) ≠ [])
    (h0 : 0 ≤ θ) (h1 : θ ≤ 1) :
    ⌊θ * ((getAllNgrams docs n).length : ℚ)⌋ <
      (sumFreq (getTopNgramsCoverage docs n θ) : Int) ∨
    getTopNgramsCoverage docs n θ =
      getSortedNgramFrequencies (getTallyOfNgrams (getAllNgrams docs n)) := by
  have hfl : jsTrunc (θ * ((getAllNgrams docs n).length : ℚ)) =
      ⌊θ * ((getAllNgrams docs n).length : ℚ)⌋ :=
    jsTrunc_eq_floor _ (mul_nonneg h0 (Nat.cast_nonneg _))
  rw [getTopNgramsCoverage_def]
  rcases coverageTake_exceeds_or_all (jsTrunc (θ * ((getAllNgrams docs n).length : ℚ)))
      (getSortedNgramFrequencies (getTallyOfNgrams (getAllNgrams docs n))) 0 with h | h
  · left
    rw [← hfl]
    simpa using h
  · right
    exact h

/-- Witness for C10 at the demonstration corpus, θ = 1/2. -/
theorem coverage_achieved_witness :
    getSortedNgramFrequencies (getTallyOfNgrams (getAllNgrams demoCorpus 2)) ≠ [] ∧
    (0 : ℚ) ≤ 1/2 ∧ (1/2 : ℚ) ≤ 1 ∧
    (⌊(1/2 : ℚ) * ((getAllNgrams demoCorpus 2).length : ℚ)⌋ <
        (sumFreq (getTopNgramsCoverage demoCorpus 2 (1/2)) : Int) ∨
      getTopNgramsCoverage demoCorpus 2 (1/2) =
        getSortedNgramFrequencies (getTallyOfNgrams (getAllNgrams demoCorpus 2))) :=
  ⟨by decide, by norm_num, by norm_num,
    coverage_achieved demoCorpus 2 (1/2) (by decide) (by norm_num) (by norm_num)⟩

/-! ## Claim C3: match-quality classification -/

theorem scanHits_eq_find (term : String) (hits : List Hit) :
    scanHits term hits =
      (hits.find? (fun h => normalizeTerm term == normalizeTerm h._source.name ||
          (h._source.terms.map normalizeTerm).contains (normalizeTerm term))).map
        (fun h => (h, if normalizeTerm term = normalizeTerm h._source.name
          then MatchQuality.exact else MatchQuality.synonym)) := by
  induction hits with
  | nil => rfl
  | cons hit rest ih =>
    by_cases hname : normalizeTerm term = normalizeTerm hit._source.name
    · have hq : getMatchQuality term (some hit) = some MatchQuality.exact := by
        simp [getMatchQuality, hname]
      rw [scanHits, if_pos hq, List.find?_cons_of_pos _ (by simp [hname])]
      simp [hname]
    · by_cases hmem : normalizeTerm term ∈ hit._source.terms.map normalizeTerm
      · have hq : getMatchQuality term (some hit) = some MatchQuality.synonym := by
          simp [getMatchQuality, hname, hmem]
        rw [scanHits, if_neg (by simp [hq]), if_pos hq,
          List.find?_cons_of_pos _ (by simp [hmem])]
        simp [hname]
      · have hq : getMatchQuality term (some hit) = some MatchQuality.none := by
          simp [getMatchQuality, hname, hmem]
        rw [scanHits, if_neg (by simp [hq]), if_neg (by simp [hq]),
          List.find?_cons_of_neg _ (by simp [hname, hmem])]
        exact ih

/-- C3: the scan over the ranked candidates returns the first hit whose
normalized preferred name equals the normalized query or whose normalized
alternate terms contain it; the returned tag is `exact` exactly when the
chosen hit's preferred name matches (so a name match on the chosen hit is
never tagged `synonym`), `synonym` exactly when only an alternate term
matches; and no result is produced exactly when no candidate satisfies
either condition. -/
theorem match_quality_classification (term : String) (hits : List Hit) :
    (∀ hit q, scanHits term hits = some (hit, q) →
      ((q = MatchQuality.exact ↔ normalizeTerm term = normalizeTerm hit._source.name) ∧
        (q = MatchQuality.synonym ↔
          (normalizeTerm term ≠ normalizeTerm hit._source.name ∧
            normalizeTerm term ∈ hit._source.terms.map normalizeTerm)))) ∧
    (scanHits term hits =
      (hits.find? (fun h => normalizeTerm term == normalizeTerm h._source.name ||
          (h._source.terms.map normalizeTerm).contains (normalizeTerm term))).map
        (fun h => (h, if normalizeTerm term = normalizeTerm h._source.name
          then MatchQuality.exact else MatchQuality.synonym))) ∧
    (scanHits term hits = Option.none ↔ ∀ hit ∈ hits,
      normalizeTerm term ≠ normalizeTerm hit._source.name ∧
        normalizeTerm term ∉ hit._source.terms.map normalizeTerm) := by
  refine ⟨?_, scanHits_eq_find term hits, ?_⟩
  · intro hit q heq
    rw [scanHits_eq_find] at heq
    obtain ⟨h0, hfind, hF⟩ := Option.map_eq_some'.mp heq
    have hP := List.find?_some hfind
    rw [Prod.mk.injEq] at hF
    obtain ⟨hh, hq⟩ := hF
    subst hh
    by_cases hname : normalizeTerm term = normalizeTerm h0._source.name
    · rw [if_pos hname] at hq
      subst hq
      constructor
      · simp [hname]
      · constructor
        · intro hsyn
          exact absurd hsyn (by simp)
        · intro hcon
          exact absurd hname hcon.1
    · rw [if_neg hname] at hq
      subst hq
      have hmem : normalizeTerm term ∈ h0._source.terms.map normalizeTerm := by
        rcases Bool.or_eq_true_iff.mp hP with hb | hb
        · exact absurd (by simpa using hb) hname
        · simpa using hb
      constructor
      · constructor
        · intro hex
          exact absurd hex (by simp)
        · intro heqn
          exact absurd heqn hname
      · simp [hname, hmem]
  · rw [scanHits_eq_find]
    constructor
    · intro h
      have hfind : hits.find? (fun h => normalizeTerm term == normalizeTerm h._source.name ||
          (h._source.terms.map normalizeTerm).contains (normalizeTerm term)) = Option.none := by
        cases hf : hits.find? (fun h => normalizeTerm term == normalizeTerm h._source.name ||
            (h._source.terms.map normalizeTerm).contains (normalizeTerm term)) with
        | none => rfl
        | some a =>
          rw [hf] at h
          exact absurd h (by simp)
      intro hit hmem
      have hfalse := List.find?_eq_none.mp hfind hit hmem
      constructor
      · intro hname
        exact hfalse (by simp [hname])
      · intro hmem2
        exact hfalse (by simp [hmem2])
    · intro h
      have hfind : hits.find? (fun h => normalizeTerm term == normalizeTerm h._source.name ||
          (h._source.terms.map normalizeTerm).contains (normalizeTerm term)) = Option.none := by
        refine List.find?_eq_none.mpr ?_
        intro x hx
        obtain ⟨hname, hmem⟩ := h x hx
        simp [hname, hmem]
      rw [hfind]
      rfl

/-- A concrete AAT hit whose preferred name is "oil paint". -/
def demoOilPaintHit : Hit :=
  ⟨"aatsy_subjects", "_doc", "300015050", 12,
    ⟨"oil paint", ["oil paints", "paint, oil"], "Materials (hierarchy name)", "concept"⟩⟩

/-- Witness for C3 at the query "oil paint" and one concrete candidate. -/
theorem match_quality_classification_witness :
    (∀ hit q, scanHits "oil paint" [demoOilPaintHit] = some (hit, q) →
      ((q = MatchQuality.exact ↔
          normalizeTerm "oil paint" = normalizeTerm hit._source.name) ∧
        (q = MatchQuality.synonym ↔
          (normalizeTerm "oil paint" ≠ normalizeTerm hit._source.name ∧
            normalizeTerm "oil paint" ∈ hit._source.terms.map normalizeTerm)))) ∧
    (scanHits "oil paint" [demoOilPaintHit] =
      ([demoOilPaintHit].find?
          (fun h => normalizeTerm "oil paint" == normalizeTerm h._source.name ||
            (h._source.terms.map normalizeTerm).contains (normalizeTerm "oil paint"))).map
        (fun h => (h, if normalizeTerm "oil paint" = normalizeTerm h._source.name
          then MatchQuality.exact else MatchQuality.synonym))) ∧
    (scanHits "oil paint" [demoOilPaintHit] = Option.none ↔
      ∀ hit ∈ [demoOilPaintHit],
        normalizeTerm "oil paint" ≠ normalizeTerm hit._source.name ∧
          normalizeTerm "oil paint" ∉ hit._source.terms.map normalizeTerm) :=
  match_quality_classification "oil paint" [demoOilPaintHit]

/-! ## Claim C2: search-failure recovery (code bug) -/

/-- A search client that fails with a connection error for the query
"oil on" and answers other queries with an empty, successful result. -/
def failingOnOilOnClient : SearchClient := fun term _ =>
  if term = "oil on" then Except.error ⟨"connect ECONNREFUSED 127.0.0.1:9200"⟩
  else Except.ok ⟨200, ⟨⟨[]⟩⟩⟩

/-- A search client that answers every query with status 500 but still
carries a hit in the response body. -/
def non200Client : SearchClient := fun _ _ =>
  Except.ok ⟨500, ⟨⟨[demoOilPaintHit]⟩⟩⟩

/-- C2 (code bug): the intended behaviour — recover a failed lookup as
an absent match for that one n-gram and keep the rest of the batch — is
not what the code does. When the search client throws, the catch block
in `matchAatSubjects` logs and returns `undefined`; `findTopHit` then
reads `response.hits.hits`, raising a TypeError that rejects the whole
batch, so even the healthy second n-gram's result is lost. A non-success
status, in turn, is only logged: the body is still scanned and can still
produce a (non-absent) match. -/
theorem search_failure_aborts_batch :
    matchNgramsToAatSubjects failingOnOilOnClient [⟨"oil on", 2⟩, ⟨"acrylic", 1⟩] =
      Except.error JsError.typeError ∧
    findTopHit non200Client ⟨"oil paint", 7⟩ =
      Except.ok (some (demoOilPaintHit, MatchQuality.exact)) := by
  constructor
  · rfl
  · have hq : getMatchQuality "oil paint" (some demoOilPaintHit) = some MatchQuality.exact := by
      simp [getMatchQuality, demoOilPaintHit]
    have hstep : findTopHit non200Client ⟨"oil paint", 7⟩ =
        Except.ok (scanHits "oil paint" [demoOilPaintHit]) := rfl
    rw [hstep, scanHits, if_pos hq]

/-! ## Claim C9: batch result ordering -/

theorem promiseAll_ok {ε α : Type} (xs : List (Except ε α)) :
    ∀ out : List α, promiseAll xs = Except.ok out → xs = out.map Except.ok := by
  induction xs with
  | nil =>
    intro out h
    rw [promiseAll] at h
    cases h
    rfl
  | cons x rest ih =>
    intro out h
    cases x with
    | error e =>
      rw [promiseAll] at h
      exact Except.noConfusion h
    | ok a =>
      rw [promiseAll] at h
      cases hx : promiseAll rest with
      | error e =>
        rw [hx] at h
        simp [Except.map] at h
      | ok l =>
        rw [hx] at h
        simp only [Except.map, Except.ok.injEq] at h
        subst h
        rw [List.map_cons, ← ih l hx]

/-- C9: whenever the batch resolves, it has one output slot per input
n-gram, and slot i pairs exactly input n-gram i with the (possibly
absent) match that `findTopHit` produced for that same n-gram — output
order corresponds to input order. -/
theorem batch_preserves_input_order (clientSearch : SearchClient)
    (ngrams : List NgramFrequency) (out : List (NgramFrequency × Option AatMatch))
    (h : matchNgramsToAatSubjects clientSearch ngrams = Except.ok out) :
    out.length = ngrams.length ∧
    ∀ i (hn : i < ngrams.length) (ho : i < out.length),
      ∃ topHit : Option (Hit × MatchQuality),
        findTopHit clientSearch (ngrams.get ⟨i, hn⟩) = Except.ok topHit ∧
          out.get ⟨i, ho⟩ = (ngrams.get ⟨i, hn⟩, topHit.map toAatMatch) := by
  rw [matchNgramsToAatSubjects] at h
  cases hp : promiseAll (ngrams.map (fun ngram => findTopHit clientSearch ngram)) with
  | error e =>
    rw [hp] at h
    exact Except.noConfusion h
  | ok topHits =>
    rw [hp] at h
    have hout : out = List.zipWith (fun hit nf => (nf, hit.map toAatMatch)) topHits ngrams := by
      cases h
      rfl
    have hmap := promiseAll_ok _ _ hp
    have hlen : topHits.length = ngrams.length := by
      have hcong := congrArg List.length hmap
      simp at hcong
      omega
    subst hout
    constructor
    · rw [List.length_zipWith, hlen]
      exact Nat.min_self _
    · intro i hn ho
      have hi : i < topHits.length := by omega
      refine ⟨topHits.get ⟨i, hi⟩, ?_, ?_⟩
      · have h1 := List.get_of_eq hmap ⟨i, by simpa using hn⟩
        rw [List.get_map] at h1
        rw [h1, List.get_map]
      · rw [List.get_zipWith]

/-- A search client that succeeds on every query with an empty hit
list. -/
def okEmptyClient : SearchClient := fun _ _ =>
  Except.ok ⟨200, ⟨⟨[]⟩⟩⟩

/-- A two-element batch of n-gram frequencies. -/
def demoNgrams : List NgramFrequency :=
  [⟨"oil on", 2⟩, ⟨"on canvas", 2⟩]

/-- The batch output produced for `demoNgrams` by `okEmptyClient`. -/
def demoBatchOut : List (NgramFrequency × Option AatMatch) :=
  [(⟨"oil on", 2⟩, Option.none), (⟨"on canvas", 2⟩, Option.none)]

/-- Witness for C9 on a concrete two-element batch. -/
theorem batch_preserves_input_order_witness :
    matchNgramsToAatSubjects okEmptyClient demoNgrams = Except.ok demoBatchOut ∧
    (demoBatchOut.length = demoNgrams.length ∧
      ∀ i (hn : i < demoNgrams.length) (ho : i < demoBatchOut.length),
        ∃ topHit : Option (Hit × MatchQuality),
          findTopHit okEmptyClient (demoNgrams.get ⟨i, hn⟩) = Except.ok topHit ∧
            demoBatchOut.get ⟨i, ho⟩ = (demoNgrams.get ⟨i, hn⟩, topHit.map toAatMatch)) :=
  ⟨rfl, batch_preserves_input_order okEmptyClient demoNgrams demoBatchOut rfl⟩
